import Mathlib

/-!
Shallow embedding of the math_machines repository (src/phases.rs, src/caches.rs,
src/machines.rs) and verification of its specification claims.

Machine integers: the source uses `MMInt = u128` and `MMSize = usize`.  They are
modelled as `Nat`; the one arithmetic operation that can wrap (the Fibonacci
addition `phase[1] + phase[2]`) is reduced modulo `2 ^ 128` explicitly.

Collections: `BTreeSet<Phase>` is modelled as a list kept strictly sorted in
descending derived order (so that the source's `iter().rev()` is plain
left-to-right traversal), and `HashMap<I, MMSize>` as an association list; all
observations made by the source (lookup, key set, max of values) are order
insensitive, and the source's clone-then-mutate iteration patterns are pointwise
maps, so this is faithful.

Panics (the `expect("usage count")` inside `valid_usage`) are modelled by
`Option`: a `none` result of `drop_invalid` or `lru_calculate` is a panic.
-/

namespace MathMachines

/-- Embedding of `Phase<MMInt, MMInt>` from src/phases.rs: a window of
`PHASE_SIZE = 3` u128 values together with the input index. -/
structure Phase where
  p0 : Nat
  p1 : Nat
  p2 : Nat
  input : Nat
deriving DecidableEq

/-- Modulus of the u128 machine integers (`MMInt`). -/
def U128 : Nat := 2 ^ 128

/-- The derived `Ord` of `Phase` (`#[derive(PartialOrd, Ord)]` on src/phases.rs
line 30): lexicographic over the fields in declaration order, so the window
array `phase` compares before the `input` field. -/
def phaseLt (p q : Phase) : Bool :=
  decide (p.p0 < q.p0) ||
    (decide (p.p0 = q.p0) && (decide (p.p1 < q.p1) ||
      (decide (p.p1 = q.p1) && (decide (p.p2 < q.p2) ||
        (decide (p.p2 = q.p2) && decide (p.input < q.input))))))

/-- `Phase::new` (the `Newable` impl, src/phases.rs lines 104-113): every
window slot and the input at the domain's zero value. -/
def Phase.new : Phase := ⟨0, 0, 0, 0⟩

/-- `Phase::result`: the head slot of the window. -/
def Phase.result (p : Phase) : Nat := p.p0

/-- Lookup in the usages association list, modelling `HashMap::get`. -/
def us_get (us : List (Nat × Nat)) (k : Nat) : Option Nat :=
  (us.find? (fun iu => decide (iu.1 = k))).map Prod.snd

/-- Insert into the usages association list, modelling `HashMap::insert`:
replace the value when the key is present, otherwise add the binding. -/
def us_insert (us : List (Nat × Nat)) (k v : Nat) : List (Nat × Nat) :=
  if us.any (fun iu => decide (iu.1 = k)) then
    us.map (fun iu => if iu.1 = k then (k, v) else iu)
  else (k, v) :: us

/-- Remove a key from the usages association list, modelling `HashMap::remove`. -/
def us_remove (us : List (Nat × Nat)) (k : Nat) : List (Nat × Nat) :=
  us.filter (fun iu => decide (iu.1 ≠ k))

/-- `MachineCache::update_usage` (src/caches.rs lines 168-177): iterate a clone
of the usages map and bump every record matching the filter by 1.  Since each
key is written once, the iteration is a pointwise map. -/
def update_usage (us : List (Nat × Nat)) (filt : Nat → Nat → Bool) : List (Nat × Nat) :=
  us.map (fun iu => if filt iu.1 iu.2 then (iu.1, iu.2 + 1) else iu)

/-- Maximum of a list of naturals with default 0, modelling
`us.sort(); us.last().unwrap_or(&&0)`. -/
def list_max (l : List Nat) : Nat := l.foldr max 0

/-- Embedding of `MachineCache<MMInt, MMInt>` (src/caches.rs lines 50-57):
`entries` is the `BTreeSet<Phase>` as a strictly descending list in the derived
`Phase` order, `usages` the `HashMap<I, MMSize>` as an association list. -/
structure MachineCache where
  entries : List Phase
  usages : List (Nat × Nat)
deriving DecidableEq

/-- `MachineCache::highest_usage` (src/caches.rs lines 157-161). -/
def highest_usage (c : MachineCache) : Nat := list_max (c.usages.map Prod.snd)

/-- `MachineCache::len`. -/
def cache_len (c : MachineCache) : Nat := c.entries.length

/-- `MachineCache::valid_usage` (src/caches.rs lines 180-184): `none` models the
panic of `expect("usage count")` when the key has no record. -/
def valid_usage (c : MachineCache) (k : Nat) : Option Bool :=
  (us_get c.usages k).map (fun u => decide (u < highest_usage c))

/-- Ordered insertion into the descending entry list, modelling
`BTreeSet::insert`; an element already present (derived order equal, hence
equal) leaves the set unchanged. -/
def insertDesc (e : Phase) : List Phase → List Phase
  | [] => [e]
  | q :: rest =>
    if phaseLt q e then e :: q :: rest
    else if phaseLt e q then q :: insertDesc e rest
    else q :: rest

/-- Removal from the entry set, together with the usage record of the entry's
input, as done inside `drop` and `drop_invalid`. -/
def cache_remove (c : MachineCache) (p : Phase) : MachineCache :=
  ⟨c.entries.erase p, us_remove c.usages p.input⟩

/-- `MachineCache::find_rev` (src/caches.rs lines 230-242): scan the entries in
reverse `BTreeSet` order (our list order), and on a hit age every usage record
by 1 and reset the record of the *query key* to 0.  Returns the found phase (or
`none` for `PhaseNotFound`) together with the updated cache. -/
def find_rev (c : MachineCache) (key : Nat) (pred : Phase → Bool) :
    Option Phase × MachineCache :=
  match c.entries.find? pred with
  | some ph =>
    (some ph, ⟨c.entries, us_insert (update_usage c.usages (fun _ _ => true)) key 0⟩)
  | none => (none, c)

/-- `MachineCache::find` (src/caches.rs lines 222-224): exact match. -/
def find (c : MachineCache) (key : Nat) : Option Phase × MachineCache :=
  find_rev c key (fun ph => decide (ph.input = key))

/-- `MachineCache::find_closest` (src/caches.rs lines 225-229): first entry in
reverse order whose input does not exceed the key. -/
def find_closest (c : MachineCache) (key : Nat) : Option Phase × MachineCache :=
  find_rev c key (fun ph => decide (ph.input ≤ key))

/-- `MachineCache::push` (src/caches.rs lines 243-251): insert a usage record 0
for the entry's input, insert the entry, then bump every other usage record. -/
def push (c : MachineCache) (e : Phase) : MachineCache :=
  ⟨insertDesc e c.entries,
   update_usage (us_insert c.usages e.input 0) (fun i _ => decide (i ≠ e.input))⟩

/-- Loop body of `MachineCache::drop_invalid` (src/caches.rs lines 207-221):
iterate the pre-sweep clone of the entries in reverse order; keep an entry iff
the predicate holds and `valid_usage` holds *on the current, mutating cache*;
otherwise remove the entry and its usage record.  `none` models the
`valid_usage` panic (only reachable when the predicate holds, as `&&`
short-circuits). -/
def drop_invalid_go (pred : Phase → Bool) :
    List Phase → MachineCache → List Phase → Option (List Phase × MachineCache)
  | [], c, acc => some (acc.reverse, c)
  | p :: rest, c, acc =>
    if pred p then
      match valid_usage c p.input with
      | none => none
      | some true => drop_invalid_go pred rest c acc
      | some false => drop_invalid_go pred rest (cache_remove c p) (p :: acc)
    else drop_invalid_go pred rest (cache_remove c p) (p :: acc)

/-- `MachineCache::drop_invalid`. -/
def drop_invalid (c : MachineCache) (pred : Phase → Bool) :
    Option (List Phase × MachineCache) :=
  drop_invalid_go pred c.entries c []

/-- Embedding of `Machine<T, I, MM>` (src/machines.rs lines 23-34) at
`T = I = MMInt`; the contained math machine is supplied separately as a pure
`calculate` function, which the reference machines are. -/
structure Machine where
  cache : MachineCache
  max_entry_cap : Nat
  max_usage_age : Nat
deriving DecidableEq

/-- `Machine::new` with an empty default cache. -/
def Machine.init (cap age : Nat) : Machine := ⟨⟨[], []⟩, cap, age⟩

/-- `is_too_big` (src/machines.rs lines 66-68), exactly as written:
`self.max_entry_cap() >= self.cache.len()`. -/
def is_too_big (m : Machine) : Bool := decide (m.max_entry_cap ≥ cache_len m.cache)

/-- `is_too_old` (src/machines.rs lines 69-71), exactly as written:
`self.max_usage_age() >= self.cache.highest_usage()`. -/
def is_too_old (m : Machine) : Bool := decide (m.max_usage_age ≥ highest_usage m.cache)

/-- `lru_find_phase` (src/machines.rs lines 173-185): look up the closest
cached phase; on `PhaseNotFound` substitute `Phase::new()`. -/
def lru_find_phase (m : Machine) (n : Nat) : Phase × Machine :=
  match find_closest m.cache n with
  | (some p, c') => (p, { m with cache := c' })
  | (none, c') => (Phase.new, { m with cache := c' })

/-- `lru_drop_if_capacity_met` (src/machines.rs lines 163-171): run the
eviction sweep when either trigger fires, discarding the returned list of
dropped entries (the cache mutation persists). -/
def lru_drop_if_capacity_met (m : Machine) : Option Machine :=
  if is_too_big m || is_too_old m then
    (drop_invalid m.cache (fun _ => true)).map (fun r => { m with cache := r.2 })
  else some m

/-- `lru_do_calculation` (src/machines.rs lines 148-161) for a total
calculator: run the calculation, push the advanced phase, return its result. -/
def lru_do_calculation (calcF : Nat → Phase → Phase) (m : Machine) (n : Nat)
    (ph : Phase) : Nat × Machine :=
  let adv := calcF n ph
  (adv.result, { m with cache := push m.cache adv })

/-- `lru_calculate` (src/machines.rs lines 122-131): find the phase, run the
conditional eviction sweep, calculate and push.  `none` models a panic inside
the sweep. -/
def lru_calculate (calcF : Nat → Phase → Phase) (m : Machine) (n : Nat) :
    Option (Nat × Machine) :=
  let pm := lru_find_phase m n
  match lru_drop_if_capacity_met pm.2 with
  | some m2 => some (lru_do_calculation calcF m2 n pm.1)
  | none => none

/-- One step of the Fibonacci loop body (src/machines.rs lines 192-195):
`phase.rotate(1); phase[0] = max(1, phase[1] + phase[2])`, with the u128
addition reduced modulo `2 ^ 128`. -/
def fibStep (w : Nat × Nat × Nat) : Nat × Nat × Nat :=
  (max 1 ((w.1 + w.2.1) % U128), w.1, w.2.1)

/-- The `for _ in *start..stahp` loop of `FibonacciMachine::calculate`:
`k` iterations of `fibStep`. -/
def fib_loop : Nat → (Nat × Nat × Nat) → Nat × Nat × Nat
  | 0, w => w
  | k + 1, w => fib_loop k (fibStep w)

/-- `FibonacciMachine::calculate` (src/machines.rs lines 187-198): capture the
old input as the loop start, set the input to `n`, iterate the step once per
index from start to `n` (zero iterations when start exceeds `n`, as the Rust
range is then empty, matching truncated subtraction). -/
def fib_calculate (n : Nat) (ph : Phase) : Phase :=
  let w := fib_loop (n - ph.input) (ph.p0, ph.p1, ph.p2)
  ⟨w.1, w.2.1, w.2.2, n⟩

/-- The canonical Fibonacci phase at index `n`: the advance from the zero
state. -/
def fib_phase (n : Nat) : Phase := fib_calculate n Phase.new

/-- `raw_calculate` (src/machines.rs lines 136-146) for the Fibonacci machine:
calculate from `Phase::new()` without touching the cache and return the
result slot. -/
def raw_calculate (n : Nat) : Nat := (fib_calculate n Phase.new).result

/-- Machine states reachable from a fresh `Machine::new` by any sequence of
successful `lru_calculate` calls. -/
inductive Reachable (calcF : Nat → Phase → Phase) : Machine → Prop
  | init (cap age : Nat) : Reachable calcF (Machine.init cap age)
  | step {m : Machine} {n v : Nat} {m' : Machine} : Reachable calcF m →
      lru_calculate calcF m n = some (v, m') → Reachable calcF m'

/-- Cache states reachable from an empty `MachineCache` by any sequence of
`find`, `find_closest`, `push` and (non-panicking) `drop_invalid` calls, where
every pushed checkpoint is the canonical checkpoint of its index (no two
inserted checkpoints share an index with different windows). -/
inductive CReach (canon : Nat → Phase) : MachineCache → Prop
  | empty : CReach canon ⟨[], []⟩
  | find_step {c : MachineCache} (k : Nat) : CReach canon c →
      CReach canon (find c k).2
  | closest_step {c : MachineCache} (k : Nat) : CReach canon c →
      CReach canon (find_closest c k).2
  | push_step {c : MachineCache} (i : Nat) : CReach canon c →
      CReach canon (push c (canon i))
  | drop_step {c : MachineCache} (pred : Phase → Bool) {d : List Phase}
      {c' : MachineCache} : CReach canon c →
      drop_invalid c pred = some (d, c') → CReach canon c'

/-- `PrimesMachine::is_prime` trial-division loop (src/machines.rs lines
215-221): test divisibility by `stepper` and `stepper + 2` while
`stepper ^ 2 <= n`, advancing by 6. -/
def is_prime_loop (n stepper : Nat) : Bool :=
  if stepper ^ 2 ≤ n then
    if n % stepper = 0 || n % (stepper + 2) = 0 then false
    else is_prime_loop n (stepper + 6)
  else true
  termination_by n + 1 - stepper
  decreasing_by
    have h1 : stepper ≤ stepper ^ 2 := Nat.le_self_pow (by omega) stepper
    omega

/-- `PrimesMachine::is_prime` (src/machines.rs lines 210-223). -/
def is_prime (n : Nat) : Bool :=
  if n ≤ 1 then false
  else if n ≤ 3 then true
  else if n % 2 = 0 || n % 3 = 0 then false
  else is_prime_loop n 5

/-- The `while !is_prime(n) { n += 2 }` loop of `PrimesMachine::next_prime`,
with explicit fuel; `none` models divergence within the given fuel. -/
def next_prime_loop : Nat → Nat → Option Nat
  | 0, _ => none
  | fuel + 1, n => if is_prime n then some n else next_prime_loop fuel (n + 2)

/-- `PrimesMachine::next_prime` (src/machines.rs lines 232-240). -/
def next_prime (fuel n : Nat) : Option Nat :=
  if n = 0 then some 2
  else if n = 1 ∨ n = 2 then some (n + 1)
  else next_prime_loop fuel (n + 2)

/-- The `for _ in start..stahp` loop of `PrimesMachine::calculate`: apply
`next_prime` to the head slot `k` times. -/
def primes_iter (fuel : Nat) : Nat → Nat → Option Nat
  | 0, v => some v
  | k + 1, v =>
    match next_prime fuel v with
    | some v' => primes_iter fuel k v'
    | none => none

/-- `PrimesMachine::calculate` (src/machines.rs lines 243-253): iterate
`phase[0] = next_prime(phase[0])` once per index from the old input to `n`,
leaving the other window slots untouched and setting the input to `n`. -/
def primes_calculate (fuel n : Nat) (ph : Phase) : Option Phase :=
  match primes_iter fuel (n - ph.input) ph.p0 with
  | some v => some ⟨v, ph.p1, ph.p2, n⟩
  | none => none

/-- Values the Primes head slot can take: zero initially, then odd numbers at
least 3 apart from the initial prime 2.  Every prime is such a value. -/
def GoodVal (v : Nat) : Prop := v = 0 ∨ v = 2 ∨ (3 ≤ v ∧ v % 2 = 1)

/-- The cache integrity invariant threaded through every reachable state:
entries strictly descending in the derived order, every entry the canonical
checkpoint of its index, every entry's index carrying a usage record, and no
duplicate usage keys. -/
def cache_inv (canon : Nat → Phase) (c : MachineCache) : Prop :=
  List.Pairwise (fun a b => phaseLt b a = true) c.entries ∧
  (∀ p ∈ c.entries, p = canon p.input) ∧
  (∀ p ∈ c.entries, (us_get c.usages p.input).isSome) ∧
  (c.usages.map Prod.fst).Nodup

/-! ### Order lemmas for the derived Phase order -/

lemma phaseLt_irrefl (p : Phase) : phaseLt p p = false := by
  simp [phaseLt]

lemma phaseLt_trans {a b c : Phase} (h1 : phaseLt a b = true) (h2 : phaseLt b c = true) :
    phaseLt a c = true := by
  simp only [phaseLt, Bool.or_eq_true, Bool.and_eq_true, decide_eq_true_eq] at h1 h2 ⊢
  omega

lemma eq_of_not_phaseLt {a b : Phase} (h1 : phaseLt a b = false) (h2 : phaseLt b a = false) :
    a = b := by
  cases a
  cases b
  simp only [phaseLt, Bool.or_eq_false_iff, Bool.and_eq_false_iff, decide_eq_false_iff_not,
    decide_eq_true_eq, Bool.or_eq_true] at h1 h2
  simp only [Phase.mk.injEq]
  omega

lemma phaseLt_asymm {a b : Phase} (h : phaseLt a b = true) : phaseLt b a = false := by
  by_contra hc
  have hba : phaseLt b a = true := by
    cases hab : phaseLt b a
    · exact absurd hab hc
    · rfl
  have := phaseLt_trans h hba
  rw [phaseLt_irrefl] at this
  exact Bool.false_ne_true this

/-! ### Membership and sortedness of the descending entry list -/

lemma mem_insertDesc {x e : Phase} : ∀ {l : List Phase},
    x ∈ insertDesc e l ↔ x = e ∨ x ∈ l := by
  intro l
  induction l with
  | nil => simp [insertDesc]
  | cons q rest ih =>
    by_cases h1 : phaseLt q e = true
    · simp only [insertDesc, h1, if_true, List.mem_cons]
    · by_cases h2 : phaseLt e q = true
      · simp only [insertDesc, h1, h2, Bool.false_eq_true, if_false, if_true, List.mem_cons, ih]
        tauto
      · have he : e = q := eq_of_not_phaseLt (Bool.not_eq_true _ |>.mp h2)
          (Bool.not_eq_true _ |>.mp h1)
        subst he
        simp only [insertDesc, phaseLt_irrefl, Bool.false_eq_true, if_false, List.mem_cons]
        tauto

lemma pairwise_insertDesc {e : Phase} : ∀ {l : List Phase},
    List.Pairwise (fun a b => phaseLt b a = true) l →
    List.Pairwise (fun a b => phaseLt b a = true) (insertDesc e l) := by
  intro l
  induction l with
  | nil => intro _; simp [insertDesc]
  | cons q rest ih =>
    intro hp
    rw [List.pairwise_cons] at hp
    obtain ⟨hq, hrest⟩ := hp
    by_cases h1 : phaseLt q e = true
    · simp only [insertDesc, h1, if_true]
      rw [List.pairwise_cons]
      refine ⟨?_, List.pairwise_cons.mpr ⟨hq, hrest⟩⟩
      intro y hy
      rcases List.mem_cons.mp hy with rfl | hy'
      · exact h1
      · exact phaseLt_trans (hq y hy') h1
    · by_cases h2 : phaseLt e q = true
      · simp only [insertDesc, h1, h2, Bool.false_eq_true, if_false, if_true]
        rw [List.pairwise_cons]
        refine ⟨?_, ih hrest⟩
        intro y hy
        rcases mem_insertDesc.mp hy with rfl | hy'
        · exact h2
        · exact hq y hy'
      · simp only [insertDesc, h1, h2, Bool.false_eq_true, if_false]
        exact List.pairwise_cons.mpr ⟨hq, hrest⟩

lemma nodup_of_pairwise_desc {l : List Phase}
    (h : List.Pairwise (fun a b => phaseLt b a = true) l) : l.Nodup := by
  refine h.imp ?_
  intro a b hab
  intro he
  subst he
  rw [phaseLt_irrefl] at hab
  exact Bool.false_ne_true hab

/-! ### Association-list lemmas for the usages map -/

lemma find_map_fst_preserve (f : Nat × Nat → Nat × Nat)
    (hf : ∀ iu, (f iu).1 = iu.1) (k : Nat) : ∀ us : List (Nat × Nat),
    (us.map f).find? (fun iu => decide (iu.1 = k)) =
      (us.find? (fun iu => decide (iu.1 = k))).map f := by
  intro us
  induction us with
  | nil => rfl
  | cons a us ih =>
    by_cases h : a.1 = k
    · have hfa : (f a).1 = k := by rw [hf a, h]
      simp [List.find?_cons, h, hfa]
    · have hfa : ¬ (f a).1 = k := by rw [hf a]; exact h
      simp [List.find?_cons, h, hfa, ih]

lemma any_key_iff_mem (us : List (Nat × Nat)) (k : Nat) :
    us.any (fun iu => decide (iu.1 = k)) = true ↔ k ∈ us.map Prod.fst := by
  simp only [List.any_eq_true, decide_eq_true_eq, List.mem_map]

lemma update_usage_fst (_us : List (Nat × Nat)) (filt : Nat → Nat → Bool) :
    ∀ iu, ((fun iu => if filt iu.1 iu.2 = true then (iu.1, iu.2 + 1) else iu) iu).1 = iu.1 := by
  intro iu
  by_cases hb : filt iu.1 iu.2 = true <;> simp [hb]

lemma us_get_update (us : List (Nat × Nat)) (filt : Nat → Nat → Bool) (k : Nat) :
    us_get (update_usage us filt) k =
      (us_get us k).map (fun u => if filt k u = true then u + 1 else u) := by
  rw [us_get, update_usage, find_map_fst_preserve _ (update_usage_fst us filt) k us]
  cases h : us.find? (fun iu => decide (iu.1 = k)) with
  | none => simp [us_get, h]
  | some a =>
    obtain ⟨i, u⟩ := a
    have hik : i = k := by simpa using List.find?_some h
    subst hik
    by_cases hb : filt i u = true <;> simp [us_get, h, hb]

lemma keys_update_usage (us : List (Nat × Nat)) (filt : Nat → Nat → Bool) :
    (update_usage us filt).map Prod.fst = us.map Prod.fst := by
  rw [update_usage, List.map_map]
  exact List.map_congr_left (fun a _ => update_usage_fst us filt a)

lemma us_insert_fst (k v : Nat) :
    ∀ iu : Nat × Nat, ((fun iu => if iu.1 = k then (k, v) else iu) iu).1 = iu.1 := by
  intro iu
  by_cases hb : iu.1 = k <;> simp [hb]

lemma us_get_insert_self (us : List (Nat × Nat)) (k v : Nat) :
    us_get (us_insert us k v) k = some v := by
  rw [us_insert]
  by_cases h : us.any (fun iu => decide (iu.1 = k)) = true
  · rw [if_pos h, us_get, find_map_fst_preserve _ (us_insert_fst k v) k us]
    have : ∃ x ∈ us, (fun iu => decide (iu.1 = k)) x = true := by
      simpa only [List.any_eq_true] using h
    obtain ⟨p, hfind⟩ := Option.isSome_iff_exists.mp (List.find?_isSome.mpr this)
    obtain ⟨i, u⟩ := p
    have hik : i = k := by simpa using List.find?_some hfind
    subst hik
    simp [hfind]
  · rw [if_neg h]
    simp [us_get, List.find?_cons]

lemma us_get_insert_ne (us : List (Nat × Nat)) (k v k' : Nat) (hne : k' ≠ k) :
    us_get (us_insert us k v) k' = us_get us k' := by
  rw [us_insert]
  by_cases h : us.any (fun iu => decide (iu.1 = k)) = true
  · rw [if_pos h, us_get, find_map_fst_preserve _ (us_insert_fst k v) k' us]
    cases hf : us.find? (fun iu => decide (iu.1 = k')) with
    | none => simp [us_get, hf]
    | some a =>
      obtain ⟨i, u⟩ := a
      have hik : i = k' := by simpa using List.find?_some hf
      subst hik
      have : ¬ i = k := hne
      simp [us_get, hf, this]
  · rw [if_neg h]
    simp [us_get, List.find?_cons, Ne.symm hne]

lemma keys_us_insert (us : List (Nat × Nat)) (k v : Nat) :
    (us_insert us k v).map Prod.fst =
      if k ∈ us.map Prod.fst then us.map Prod.fst else k :: us.map Prod.fst := by
  rw [us_insert]
  by_cases h : us.any (fun iu => decide (iu.1 = k)) = true
  · rw [if_pos h, if_pos ((any_key_iff_mem us k).mp h), List.map_map]
    exact List.map_congr_left (fun a _ => us_insert_fst k v a)
  · have hkm : k ∉ us.map Prod.fst := fun hm => h ((any_key_iff_mem us k).mpr hm)
    rw [if_neg h, if_neg hkm]
    rfl

lemma nodup_keys_us_insert {us : List (Nat × Nat)} (k v : Nat)
    (h : (us.map Prod.fst).Nodup) : ((us_insert us k v).map Prod.fst).Nodup := by
  rw [keys_us_insert]
  by_cases hm : k ∈ us.map Prod.fst
  · rwa [if_pos hm]
  · rw [if_neg hm]
    exact List.Nodup.cons hm h

lemma us_get_remove_self (us : List (Nat × Nat)) (k : Nat) :
    us_get (us_remove us k) k = none := by
  rw [us_get]
  cases hf : (us_remove us k).find? (fun iu => decide (iu.1 = k)) with
  | none => rfl
  | some a =>
    have h1 : a.1 = k := by simpa using List.find?_some hf
    have h2 : a ∈ us_remove us k := List.mem_of_find?_eq_some hf
    have h3 := List.of_mem_filter h2
    simp only [decide_eq_true_eq] at h3
    exact absurd h1 h3

lemma us_get_remove_ne (us : List (Nat × Nat)) (k k' : Nat) (hne : k' ≠ k) :
    us_get (us_remove us k) k' = us_get us k' := by
  rw [us_get, us_get, us_remove]
  congr 1
  induction us with
  | nil => rfl
  | cons a us ih =>
    by_cases h : a.1 = k
    · have hk' : ¬ a.1 = k' := by rw [h]; exact fun he => hne he.symm
      have hfil : decide (a.1 ≠ k) = false := by simp [h]
      rw [List.filter_cons, hfil]
      rw [List.find?_cons_of_neg _ (by simp [hk'])]
      simp only [Bool.false_eq_true, if_false]
      exact ih
    · have hfil : decide (a.1 ≠ k) = true := by simp [h]
      rw [List.filter_cons, hfil]
      simp only [if_true]
      by_cases h2 : a.1 = k'
      · rw [List.find?_cons_of_pos _ (by simp [h2]), List.find?_cons_of_pos _ (by simp [h2])]
      · rw [List.find?_cons_of_neg _ (by simp [h2]), List.find?_cons_of_neg _ (by simp [h2])]
        exact ih

lemma us_remove_sublist (us : List (Nat × Nat)) (k : Nat) :
    (us_remove us k).Sublist us := List.filter_sublist us

lemma us_get_mem_values {us : List (Nat × Nat)} {k v : Nat}
    (h : us_get us k = some v) : v ∈ us.map Prod.snd := by
  rw [us_get] at h
  cases hf : us.find? (fun iu => decide (iu.1 = k)) with
  | none => rw [hf] at h; cases h
  | some a =>
    rw [hf] at h
    obtain ⟨i, u⟩ := a
    have hv : u = v := by simpa using h
    subst hv
    exact List.mem_map.mpr ⟨(i, u), List.mem_of_find?_eq_some hf, rfl⟩

lemma us_get_isSome_iff (us : List (Nat × Nat)) (k : Nat) :
    (us_get us k).isSome = true ↔ k ∈ us.map Prod.fst := by
  rw [us_get]
  have hmap : ∀ o : Option (Nat × Nat), (o.map Prod.snd).isSome = o.isSome := by
    intro o
    cases o <;> rfl
  rw [hmap, List.find?_isSome]
  simp only [decide_eq_true_eq, List.mem_map]

/-! ### Bounds for list_max -/

lemma le_list_max {l : List Nat} {a : Nat} (h : a ∈ l) : a ≤ list_max l := by
  induction l with
  | nil => cases h
  | cons b l ih =>
    rcases List.mem_cons.mp h with rfl | h'
    · exact le_max_left _ _
    · exact le_trans (ih h') (le_max_right _ _)

lemma list_max_le {l : List Nat} {v : Nat} (h : ∀ a ∈ l, a ≤ v) : list_max l ≤ v := by
  induction l with
  | nil => exact Nat.zero_le v
  | cons b l ih =>
    exact max_le (h b (List.mem_cons_self b l)) (ih (fun a ha => h a (List.mem_cons_of_mem b ha)))

/-! ### Properties of find_rev and the maximality of reverse search -/

lemma find_rev_fst (c : MachineCache) (key : Nat) (pred : Phase → Bool) :
    (find_rev c key pred).1 = c.entries.find? pred := by
  rw [find_rev]
  cases h : c.entries.find? pred <;> simp

lemma find_rev_of_none {c : MachineCache} {key : Nat} {pred : Phase → Bool}
    (h : c.entries.find? pred = none) : find_rev c key pred = (none, c) := by
  rw [find_rev, h]

lemma find_rev_of_some {c : MachineCache} {key : Nat} {pred : Phase → Bool} {p : Phase}
    (h : c.entries.find? pred = some p) :
    find_rev c key pred =
      (some p, ⟨c.entries, us_insert (update_usage c.usages (fun _ _ => true)) key 0⟩) := by
  rw [find_rev, h]

lemma find_rev_snd_entries (c : MachineCache) (key : Nat) (pred : Phase → Bool) :
    (find_rev c key pred).2.entries = c.entries := by
  rw [find_rev]
  cases h : c.entries.find? pred <;> simp

lemma find_desc_max {pred : Phase → Bool} : ∀ {l : List Phase},
    List.Pairwise (fun a b => phaseLt b a = true) l → ∀ {p : Phase},
    l.find? pred = some p → ∀ q ∈ l, pred q = true → q = p ∨ phaseLt q p = true := by
  intro l
  induction l with
  | nil => intro _ p hp; cases hp
  | cons a l ih =>
    intro hpw p hp q hq hpred
    rw [List.pairwise_cons] at hpw
    obtain ⟨ha, hl⟩ := hpw
    cases hpa : pred a with
    | true =>
      rw [List.find?_cons_of_pos _ hpa] at hp
      cases hp
      rcases List.mem_cons.mp hq with rfl | hq'
      · exact Or.inl rfl
      · exact Or.inr (ha q hq')
    | false =>
      rw [List.find?_cons_of_neg _ (by simp [hpa])] at hp
      rcases List.mem_cons.mp hq with rfl | hq'
      · rw [hpa] at hpred; cases hpred
      · exact ih hl hp q hq' hpred

/-! ### Preservation of the cache invariant by the touch operations -/

lemma cache_inv_find_rev {canon : Nat → Phase} {c : MachineCache} (key : Nat)
    (pred : Phase → Bool) (h : cache_inv canon c) :
    cache_inv canon (find_rev c key pred).2 := by
  obtain ⟨hsort, hcanon, hrec, hkeys⟩ := h
  rw [find_rev]
  cases hf : c.entries.find? pred with
  | none => exact ⟨hsort, hcanon, hrec, hkeys⟩
  | some p =>
    refine ⟨hsort, hcanon, ?_, ?_⟩
    · intro q hq
      by_cases hk : q.input = key
      · rw [hk, us_get_insert_self]
        rfl
      · rw [us_get_insert_ne _ _ _ _ hk, us_get_update]
        have hmap : ∀ o : Option Nat, ∀ f : Nat → Nat, (o.map f).isSome = o.isSome := by
          intro o f
          cases o <;> rfl
        rw [hmap]
        exact hrec q hq
    · have h1 : ((update_usage c.usages (fun _ _ => true)).map Prod.fst).Nodup := by
        rwa [keys_update_usage]
      exact nodup_keys_us_insert key 0 h1

lemma cache_inv_push {canon : Nat → Phase} {c : MachineCache} {e : Phase}
    (h : cache_inv canon c) (he : e = canon e.input) : cache_inv canon (push c e) := by
  obtain ⟨hsort, hcanon, hrec, hkeys⟩ := h
  have hmap : ∀ o : Option Nat, ∀ f : Nat → Nat, (o.map f).isSome = o.isSome := by
    intro o f
    cases o <;> rfl
  refine ⟨pairwise_insertDesc hsort, ?_, ?_, ?_⟩
  · intro p hp
    rcases mem_insertDesc.mp hp with rfl | hp'
    · exact he
    · exact hcanon p hp'
  · intro p hp
    show (us_get (update_usage (us_insert c.usages e.input 0)
      (fun i _ => decide (i ≠ e.input))) p.input).isSome = true
    rw [us_get_update, hmap]
    rcases mem_insertDesc.mp hp with rfl | hp'
    · rw [us_get_insert_self]
      rfl
    · by_cases hk : p.input = e.input
      · rw [hk, us_get_insert_self]
        rfl
      · rw [us_get_insert_ne _ _ _ _ hk]
        exact hrec p hp'
  · show ((update_usage (us_insert c.usages e.input 0)
      (fun i _ => decide (i ≠ e.input))).map Prod.fst).Nodup
    rw [keys_update_usage]
    exact nodup_keys_us_insert e.input 0 hkeys

/-! ### The eviction sweep: totality, shrinking, survivor records, victim removal -/

lemma drop_go_isSome (pred : Phase → Bool) : ∀ (l : List Phase) (c : MachineCache)
    (acc : List Phase),
    (∀ p ∈ l, (us_get c.usages p.input).isSome = true) →
    (l.map Phase.input).Nodup →
    (drop_invalid_go pred l c acc).isSome = true := by
  intro l
  induction l with
  | nil => intro c acc _ _; rfl
  | cons p rest ih =>
    intro c acc hrec hnd
    have hp : (us_get c.usages p.input).isSome = true := hrec p (List.mem_cons_self p rest)
    obtain ⟨v, hv⟩ := Option.isSome_iff_exists.mp hp
    have hpi : p.input ∉ rest.map Phase.input := by
      rw [List.map_cons, List.nodup_cons] at hnd
      exact hnd.1
    have hrest_ne : ∀ q ∈ rest, q.input ≠ p.input := by
      intro q hq he
      exact hpi (he ▸ List.mem_map.mpr ⟨q, hq, rfl⟩)
    have hnd' : (rest.map Phase.input).Nodup := by
      rw [List.map_cons, List.nodup_cons] at hnd
      exact hnd.2
    have hrem : ∀ q ∈ rest, (us_get (cache_remove c p).usages q.input).isSome = true := by
      intro q hq
      show (us_get (us_remove c.usages p.input) q.input).isSome = true
      rw [us_get_remove_ne _ _ _ (hrest_ne q hq)]
      exact hrec q (List.mem_cons_of_mem p hq)
    by_cases hpred : pred p = true
    · have hval : valid_usage c p.input = some (decide (v < highest_usage c)) := by
        rw [valid_usage, hv]
        rfl
      cases hb : decide (v < highest_usage c) with
      | true =>
        simp only [drop_invalid_go, hpred, if_true, hval, hb]
        exact ih c acc (fun q hq => hrec q (List.mem_cons_of_mem p hq)) hnd'
      | false =>
        simp only [drop_invalid_go, hpred, if_true, hval, hb]
        exact ih (cache_remove c p) (p :: acc) hrem hnd'
    · simp only [drop_invalid_go, hpred, Bool.false_eq_true, if_false]
      exact ih (cache_remove c p) (p :: acc) hrem hnd'

lemma drop_go_sublist (pred : Phase → Bool) : ∀ (l : List Phase) (c : MachineCache)
    (acc d : List Phase) (c' : MachineCache),
    drop_invalid_go pred l c acc = some (d, c') →
    c'.entries.Sublist c.entries ∧ c'.usages.Sublist c.usages := by
  intro l
  induction l with
  | nil =>
    intro c acc d c' h
    simp only [drop_invalid_go, Option.some.injEq, Prod.mk.injEq] at h
    rw [← h.2]
    exact ⟨List.Sublist.refl _, List.Sublist.refl _⟩
  | cons p rest ih =>
    intro c acc d c' h
    have hstep : ∀ acc', drop_invalid_go pred rest (cache_remove c p) acc' = some (d, c') →
        c'.entries.Sublist c.entries ∧ c'.usages.Sublist c.usages := by
      intro acc' h'
      obtain ⟨h1, h2⟩ := ih (cache_remove c p) acc' d c' h'
      exact ⟨h1.trans (List.erase_sublist p c.entries), h2.trans (us_remove_sublist _ _)⟩
    by_cases hpred : pred p = true
    · simp only [drop_invalid_go, hpred, if_true] at h
      cases hval : valid_usage c p.input with
      | none => rw [hval] at h; cases h
      | some b =>
        rw [hval] at h
        cases b with
        | true => exact ih c acc d c' h
        | false => exact hstep (p :: acc) h
    · simp only [drop_invalid_go, hpred, Bool.false_eq_true, if_false] at h
      exact hstep (p :: acc) h

lemma drop_go_survivors (pred : Phase → Bool) : ∀ (l : List Phase) (c : MachineCache)
    (acc d : List Phase) (c' : MachineCache),
    (∀ p ∈ l, ∀ q ∈ c.entries, q.input = p.input → q = p) →
    c.entries.Nodup →
    drop_invalid_go pred l c acc = some (d, c') →
    ∀ q ∈ c'.entries, us_get c'.usages q.input = us_get c.usages q.input := by
  intro l
  induction l with
  | nil =>
    intro c acc d c' _ _ h
    simp only [drop_invalid_go, Option.some.injEq, Prod.mk.injEq] at h
    rw [← h.2]
    intro q _
    rfl
  | cons p rest ih =>
    intro c acc d c' hagree hnd h
    have hstep : ∀ acc', drop_invalid_go pred rest (cache_remove c p) acc' = some (d, c') →
        ∀ q ∈ c'.entries, us_get c'.usages q.input = us_get c.usages q.input := by
      intro acc' h' q hq
      have hagree' : ∀ p' ∈ rest, ∀ q' ∈ (cache_remove c p).entries,
          q'.input = p'.input → q' = p' := by
        intro p' hp' q' hq' he
        exact hagree p' (List.mem_cons_of_mem p hp') q'
          ((List.erase_sublist p c.entries).subset hq') he
      have hnd' : (cache_remove c p).entries.Nodup := hnd.erase p
      have hq2 : q ∈ (cache_remove c p).entries :=
        (drop_go_sublist pred rest (cache_remove c p) acc' d c' h').1.subset hq
      have hqp : q ≠ p := ((List.Nodup.mem_erase_iff hnd).mp hq2).1
      have hqin : q ∈ c.entries := ((List.Nodup.mem_erase_iff hnd).mp hq2).2
      have hne : q.input ≠ p.input := by
        intro he
        exact hqp (hagree p (List.mem_cons_self p rest) q hqin he)
      rw [ih (cache_remove c p) acc' d c' hagree' hnd' h' q hq]
      show us_get (us_remove c.usages p.input) q.input = us_get c.usages q.input
      exact us_get_remove_ne _ _ _ hne
    by_cases hpred : pred p = true
    · simp only [drop_invalid_go, hpred, if_true] at h
      cases hval : valid_usage c p.input with
      | none => rw [hval] at h; cases h
      | some b =>
        rw [hval] at h
        cases b with
        | true =>
          exact ih c acc d c'
            (fun p' hp' => hagree p' (List.mem_cons_of_mem p hp')) hnd h
        | false => exact hstep (p :: acc) h
    · simp only [drop_invalid_go, hpred, Bool.false_eq_true, if_false] at h
      exact hstep (p :: acc) h

lemma drop_go_removes_max {pred : Phase → Bool} (hpred : ∀ x, pred x = true) (v : Nat) :
    ∀ (l : List Phase) (c : MachineCache) (acc : List Phase) (p : Phase),
    p ∈ l →
    (us_get c.usages p.input = some v ∨ us_get c.usages p.input = none) →
    (∀ u ∈ c.usages.map Prod.snd, u ≤ v) →
    c.entries.Nodup →
    ∀ d c', drop_invalid_go pred l c acc = some (d, c') → p ∉ c'.entries := by
  intro l
  induction l with
  | nil => intro c acc p hp; cases hp
  | cons q rest ih =>
    intro c acc p hp hget hub hnd d c' h
    by_cases hqp : q = p
    · subst hqp
      rcases hget with hv | hv
      · have hmem : v ∈ c.usages.map Prod.snd := us_get_mem_values hv
        have h1 : v ≤ highest_usage c := le_list_max hmem
        have h2 : highest_usage c ≤ v := list_max_le hub
        have hval : valid_usage c q.input = some false := by
          rw [valid_usage, hv]
          have : decide (v < highest_usage c) = false := by
            rw [decide_eq_false_iff_not]
            omega
          rw [Option.map_some', this]
        simp only [drop_invalid_go, hpred q, if_true, hval] at h
        have hsub := (drop_go_sublist pred rest (cache_remove c q) (q :: acc) d c' h).1
        intro hmem'
        have : q ∈ (cache_remove c q).entries := hsub.subset hmem'
        exact ((List.Nodup.mem_erase_iff hnd).mp this).1 rfl
      · have hval : valid_usage c q.input = none := by
          rw [valid_usage, hv]
          rfl
        simp only [drop_invalid_go, hpred q, if_true, hval] at h
        cases h
    · have hp' : p ∈ rest := by
        rcases List.mem_cons.mp hp with rfl | h'
        · exact absurd rfl hqp
        · exact h'
      have hub' : ∀ u ∈ (us_remove c.usages q.input).map Prod.snd, u ≤ v := by
        intro u hu
        exact hub u (((us_remove_sublist c.usages q.input).map Prod.snd).subset hu)
      have hget' : us_get (us_remove c.usages q.input) p.input = some v ∨
          us_get (us_remove c.usages q.input) p.input = none := by
        by_cases he : p.input = q.input
        · rw [he, us_get_remove_self]
          exact Or.inr rfl
        · rw [us_get_remove_ne _ _ _ he]
          exact hget
      have hnd' : (cache_remove c q).entries.Nodup := hnd.erase q
      cases hval : valid_usage c q.input with
      | none =>
        simp only [drop_invalid_go, hpred q, if_true, hval] at h
        cases h
      | some b =>
        simp only [drop_invalid_go, hpred q, if_true, hval] at h
        cases b with
        | true => exact ih c acc p hp' hget hub hnd d c' h
        | false => exact ih (cache_remove c q) (q :: acc) p hp' hget' hub' hnd' d c' h

lemma inputs_nodup {canon : Nat → Phase} {c : MachineCache} (h : cache_inv canon c) :
    (c.entries.map Phase.input).Nodup := by
  refine List.Nodup.map_on ?_ (nodup_of_pairwise_desc h.1)
  intro x hx y hy hxy
  rw [h.2.1 x hx, h.2.1 y hy, hxy]

lemma drop_invalid_isSome {canon : Nat → Phase} {c : MachineCache}
    (h : cache_inv canon c) (pred : Phase → Bool) :
    (drop_invalid c pred).isSome = true := by
  rw [drop_invalid]
  exact drop_go_isSome pred c.entries c [] (fun p hp => h.2.2.1 p hp) (inputs_nodup h)

lemma cache_inv_drop_invalid {canon : Nat → Phase} {c : MachineCache} {pred : Phase → Bool}
    {d : List Phase} {c' : MachineCache} (h : cache_inv canon c)
    (hrun : drop_invalid c pred = some (d, c')) : cache_inv canon c' := by
  obtain ⟨hsort, hcanon, hrec, hkeys⟩ := h
  rw [drop_invalid] at hrun
  obtain ⟨hesub, husub⟩ := drop_go_sublist pred c.entries c [] d c' hrun
  have hsurv := drop_go_survivors pred c.entries c [] d c'
    (fun p hp q hq he => by rw [hcanon q hq, hcanon p hp, he])
    (nodup_of_pairwise_desc hsort) hrun
  refine ⟨hsort.sublist hesub, ?_, ?_, ?_⟩
  · intro p hp
    exact hcanon p (hesub.subset hp)
  · intro p hp
    rw [hsurv p hp]
    exact hrec p (hesub.subset hp)
  · exact hkeys.sublist (husub.map Prod.fst)

/-! ### The Fibonacci machine: canonical phases and the orchestration step -/

lemma fib_loop_add (a : Nat) : ∀ (b : Nat) (w : Nat × Nat × Nat),
    fib_loop (a + b) w = fib_loop a (fib_loop b w) := by
  intro b
  induction b with
  | zero => intro w; rfl
  | succ b ih =>
    intro w
    have h1 : a + (b + 1) = (a + b) + 1 := by omega
    rw [h1]
    show fib_loop (a + b) (fibStep w) = _
    rw [ih (fibStep w)]
    rfl

lemma fib_phase_input (n : Nat) : (fib_phase n).input = n := rfl

lemma fib_phase_zero : fib_phase 0 = Phase.new := rfl

lemma fib_calculate_canon {m n : Nat} (h : m ≤ n) :
    fib_calculate n (fib_phase m) = fib_phase n := by
  have key : fib_loop (n - m) (fib_loop m (0, 0, 0)) = fib_loop n (0, 0, 0) := by
    rw [← fib_loop_add]
    congr 1
    omega
  show fib_calculate n (fib_calculate m Phase.new) = fib_calculate n Phase.new
  simp only [fib_calculate, Phase.new]
  simp only [Nat.sub_zero]
  rw [key]

lemma cache_inv_empty (canon : Nat → Phase) : cache_inv canon ⟨[], []⟩ := by
  refine ⟨List.Pairwise.nil, ?_, ?_, List.nodup_nil⟩
  · intro p hp
    cases hp
  · intro p hp
    cases hp

lemma lru_drop_step {canon : Nat → Phase} {m : Machine} (h : cache_inv canon m.cache) :
    ∃ m2, lru_drop_if_capacity_met m = some m2 ∧ cache_inv canon m2.cache ∧
      m2.max_entry_cap = m.max_entry_cap ∧ m2.max_usage_age = m.max_usage_age := by
  rw [lru_drop_if_capacity_met]
  by_cases hcond : (is_too_big m || is_too_old m) = true
  · rw [if_pos hcond]
    obtain ⟨r, hr⟩ := Option.isSome_iff_exists.mp (drop_invalid_isSome h (fun _ => true))
    obtain ⟨d, c2⟩ := r
    refine ⟨{ m with cache := c2 }, ?_, ?_, rfl, rfl⟩
    · rw [hr]
      rfl
    · exact cache_inv_drop_invalid h hr
  · rw [if_neg hcond]
    exact ⟨m, rfl, h, rfl, rfl⟩

lemma lru_find_phase_spec {m : Machine} (h : cache_inv fib_phase m.cache) (n : Nat) :
    ∃ i m1, i ≤ n ∧ lru_find_phase m n = (fib_phase i, m1) ∧
      cache_inv fib_phase m1.cache := by
  cases hfind : m.cache.entries.find? (fun ph => decide (ph.input ≤ n)) with
  | none =>
    refine ⟨0, m, Nat.zero_le n, ?_, h⟩
    rw [lru_find_phase, find_closest, find_rev_of_none hfind, fib_phase_zero]
  | some p =>
    have hmem : p ∈ m.cache.entries := List.mem_of_find?_eq_some hfind
    have hle : p.input ≤ n := by simpa using List.find?_some hfind
    have hcp : p = fib_phase p.input := h.2.1 p hmem
    refine ⟨p.input, { m with cache := (find_closest m.cache n).2 }, hle, ?_, ?_⟩
    · rw [lru_find_phase]
      rw [find_closest, find_rev_of_some hfind, ← hcp]
    · exact cache_inv_find_rev n _ h

lemma lru_step_fib {m : Machine} (h : cache_inv fib_phase m.cache) (n : Nat) :
    ∃ m', lru_calculate fib_calculate m n = some ((fib_phase n).result, m') ∧
      cache_inv fib_phase m'.cache := by
  obtain ⟨i, m1, hle, hfind, hinv1⟩ := lru_find_phase_spec h n
  obtain ⟨m2, hdrop, hinv2, _, _⟩ := lru_drop_step hinv1
  refine ⟨{ m2 with cache := push m2.cache (fib_phase n) }, ?_, ?_⟩
  · rw [lru_calculate, hfind]
    simp only [hdrop]
    rw [lru_do_calculation]
    simp only [fib_calculate_canon hle]
  · exact cache_inv_push hinv2 rfl

lemma reachable_inv {m : Machine} (h : Reachable fib_calculate m) :
    cache_inv fib_phase m.cache := by
  induction h with
  | init cap age => exact cache_inv_empty fib_phase
  | step hr heq ih =>
    obtain ⟨m'', heq', hinv⟩ := lru_step_fib ih _
    have hsame := heq.symm.trans heq'
    simp only [Option.some.injEq, Prod.mk.injEq] at hsame
    rw [hsame.2]
    exact hinv

lemma raw_calculate_eq (n : Nat) : raw_calculate n = (fib_phase n).result := rfl

/-! ### The Primes machine: completeness of the trial-division test and
termination of next_prime on the values the head slot can take -/

lemma is_prime_loop_prime {p : Nat} (hp : Nat.Prime p) :
    ∀ (k s : Nat), p + 1 - s ≤ k → 5 ≤ s → is_prime_loop p s = true := by
  intro k
  induction k with
  | zero =>
    intro s hs h5
    have h1 : s ≤ s ^ 2 := Nat.le_self_pow (by omega) s
    unfold is_prime_loop
    rw [if_neg (by omega)]
  | succ k ih =>
    intro s hs h5
    by_cases hguard : s ^ 2 ≤ p
    · have hss : s * s ≤ p := by rwa [pow_two] at hguard
      have h2p := hp.two_le
      have hdvd1 : ¬ p % s = 0 := by
        intro hd
        rcases hp.eq_one_or_self_of_dvd s (Nat.dvd_of_mod_eq_zero hd) with h1 | h1
        · omega
        · subst h1
          nlinarith
      have hdvd2 : ¬ p % (s + 2) = 0 := by
        intro hd
        rcases hp.eq_one_or_self_of_dvd (s + 2) (Nat.dvd_of_mod_eq_zero hd) with h1 | h1
        · omega
        · nlinarith
      have hcond : (decide (p % s = 0) || decide (p % (s + 2) = 0)) = false := by
        simp [hdvd1, hdvd2]
      unfold is_prime_loop
      rw [if_pos hguard]
      simp only [hcond, Bool.false_eq_true, if_false]
      have hsp : s ≤ p := le_trans (Nat.le_self_pow (by omega) s) hguard
      exact ih (s + 6) (by omega) (by omega)
    · unfold is_prime_loop
      rw [if_neg hguard]

lemma is_prime_of_prime {p : Nat} (hp : Nat.Prime p) : is_prime p = true := by
  have h2 := hp.two_le
  rw [is_prime, if_neg (by omega : ¬ p ≤ 1)]
  by_cases h3 : p ≤ 3
  · rw [if_pos h3]
  · rw [if_neg h3]
    have hm2 : ¬ p % 2 = 0 := by
      intro hd
      rcases hp.eq_one_or_self_of_dvd 2 (Nat.dvd_of_mod_eq_zero hd) with h | h <;> omega
    have hm3 : ¬ p % 3 = 0 := by
      intro hd
      rcases hp.eq_one_or_self_of_dvd 3 (Nat.dvd_of_mod_eq_zero hd) with h | h <;> omega
    rw [if_neg (by simp [hm2, hm3])]
    exact is_prime_loop_prime hp (p + 1 - 5) 5 (le_refl _) (le_refl _)

lemma next_prime_loop_mono : ∀ (f1 f2 n r : Nat), f1 ≤ f2 →
    next_prime_loop f1 n = some r → next_prime_loop f2 n = some r := by
  intro f1
  induction f1 with
  | zero => intro f2 n r _ h; cases h
  | succ f1 ih =>
    intro f2 n r hle h
    obtain ⟨f2', rfl⟩ : ∃ f2', f2 = f2' + 1 := ⟨f2 - 1, by omega⟩
    simp only [next_prime_loop] at h ⊢
    by_cases hp : is_prime n = true
    · rw [if_pos hp] at h ⊢
      exact h
    · rw [if_neg hp] at h ⊢
      exact ih f2' (n + 2) r (by omega) h

lemma next_prime_loop_reaches : ∀ (k n : Nat), is_prime (n + 2 * k) = true →
    ∃ r, next_prime_loop (k + 1) n = some r := by
  intro k
  induction k with
  | zero =>
    intro n h
    refine ⟨n, ?_⟩
    simp only [next_prime_loop]
    rw [if_pos (by simpa using h)]
  | succ k ih =>
    intro n h
    by_cases hp : is_prime n = true
    · exact ⟨n, by simp only [next_prime_loop]; rw [if_pos hp]⟩
    · have h' : is_prime (n + 2 + 2 * k) = true := by
        have he : n + 2 + 2 * k = n + 2 * (k + 1) := by omega
        rw [he]
        exact h
      obtain ⟨r, hr⟩ := ih (n + 2) h'
      refine ⟨r, ?_⟩
      simp only [next_prime_loop]
      rw [if_neg hp]
      exact hr

lemma next_prime_loop_spec : ∀ (fuel n r : Nat), next_prime_loop fuel n = some r →
    ∃ j, r = n + 2 * j ∧ is_prime r = true := by
  intro fuel
  induction fuel with
  | zero => intro n r h; cases h
  | succ fuel ih =>
    intro n r h
    simp only [next_prime_loop] at h
    by_cases hp : is_prime n = true
    · rw [if_pos hp] at h
      cases h
      exact ⟨0, by omega, hp⟩
    · rw [if_neg hp] at h
      obtain ⟨j, hj, hpr⟩ := ih (n + 2) r h
      exact ⟨j + 1, by omega, hpr⟩

lemma goodval_of_prime {v : Nat} (h : v = 0 ∨ Nat.Prime v) : GoodVal v := by
  rcases h with rfl | hp
  · exact Or.inl rfl
  · rcases eq_or_ne v 2 with rfl | hne
    · exact Or.inr (Or.inl rfl)
    · have h2 := hp.two_le
      have hodd : v % 2 = 1 := Nat.odd_iff.mp (hp.odd_of_ne_two hne)
      exact Or.inr (Or.inr ⟨by omega, hodd⟩)

lemma next_prime_total {v : Nat} (h : GoodVal v) :
    ∃ fuel r, next_prime fuel v = some r ∧ GoodVal r := by
  rcases h with rfl | rfl | hv
  · refine ⟨0, 2, ?_, Or.inr (Or.inl rfl)⟩
    rw [next_prime, if_pos rfl]
  · refine ⟨0, 3, ?_, Or.inr (Or.inr ⟨le_refl 3, rfl⟩)⟩
    rw [next_prime, if_neg (by omega), if_pos (Or.inr rfl)]
  · obtain ⟨h3, hodd⟩ := hv
    obtain ⟨p, hpge, hp⟩ := Nat.exists_infinite_primes (v + 2)
    have hpodd : p % 2 = 1 := Nat.odd_iff.mp (hp.odd_of_ne_two (by omega))
    obtain ⟨k, hkeq⟩ : ∃ k, p = (v + 2) + 2 * k := ⟨(p - (v + 2)) / 2, by omega⟩
    have hpr : is_prime ((v + 2) + 2 * k) = true := by
      rw [← hkeq]
      exact is_prime_of_prime hp
    obtain ⟨r, hr⟩ := next_prime_loop_reaches k (v + 2) hpr
    obtain ⟨j, hjr, _⟩ := next_prime_loop_spec (k + 1) (v + 2) r hr
    refine ⟨k + 1, r, ?_, ?_⟩
    · rw [next_prime, if_neg (by omega), if_neg (by omega)]
      exact hr
    · exact Or.inr (Or.inr ⟨by omega, by omega⟩)

lemma next_prime_mono {f1 f2 n r : Nat} (hle : f1 ≤ f2)
    (h : next_prime f1 n = some r) : next_prime f2 n = some r := by
  rw [next_prime] at h ⊢
  by_cases h0 : n = 0
  · rw [if_pos h0] at h ⊢
    exact h
  · rw [if_neg h0] at h ⊢
    by_cases h12 : n = 1 ∨ n = 2
    · rw [if_pos h12] at h ⊢
      exact h
    · rw [if_neg h12] at h ⊢
      exact next_prime_loop_mono f1 f2 (n + 2) r hle h

lemma primes_iter_mono : ∀ (k f1 f2 v r : Nat), f1 ≤ f2 →
    primes_iter f1 k v = some r → primes_iter f2 k v = some r := by
  intro k
  induction k with
  | zero => intro f1 f2 v r _ h; exact h
  | succ k ih =>
    intro f1 f2 v r hle h
    simp only [primes_iter] at h ⊢
    cases hn : next_prime f1 v with
    | none => rw [hn] at h; cases h
    | some v' =>
      rw [hn] at h
      rw [next_prime_mono hle hn]
      exact ih f1 f2 v' r hle h

lemma primes_iter_total : ∀ (k v : Nat), GoodVal v →
    ∃ fuel r, primes_iter fuel k v = some r := by
  intro k
  induction k with
  | zero => intro v _; exact ⟨0, v, rfl⟩
  | succ k ih =>
    intro v hv
    obtain ⟨f1, r1, h1, hg1⟩ := next_prime_total hv
    obtain ⟨f2, r2, h2⟩ := ih r1 hg1
    refine ⟨max f1 f2, r2, ?_⟩
    simp only [primes_iter]
    rw [next_prime_mono (le_max_left f1 f2) h1]
    exact primes_iter_mono k f2 (max f1 f2) r1 r2 (le_max_right f1 f2) h2

lemma primes_calculate_total (n : Nat) (ph : Phase) (h : GoodVal ph.p0) :
    ∃ fuel res, primes_calculate fuel n ph = some res := by
  obtain ⟨fuel, r, hr⟩ := primes_iter_total (n - ph.input) ph.p0 h
  refine ⟨fuel, ⟨r, ph.p1, ph.p2, n⟩, ?_⟩
  rw [primes_calculate, hr]

lemma fib_loop_eq_iterate : ∀ (k : Nat) (w : Nat × Nat × Nat),
    fib_loop k w = fibStep^[k] w := by
  intro k
  induction k with
  | zero => intro w; rfl
  | succ k ih =>
    intro w
    rw [Function.iterate_succ_apply]
    exact ih (fibStep w)

/-! ### Reachable cache states under canonical pushes -/

lemma creach_inv {canon : Nat → Phase} (hcanon : ∀ i, (canon i).input = i) :
    ∀ {c : MachineCache}, CReach canon c → cache_inv canon c := by
  intro c h
  induction h with
  | empty => exact cache_inv_empty canon
  | find_step k _ ih => exact cache_inv_find_rev k _ ih
  | closest_step k _ ih => exact cache_inv_find_rev k _ ih
  | push_step i _ ih => exact cache_inv_push ih (by rw [hcanon i])
  | drop_step pred _ hrun ih => exact cache_inv_drop_invalid ih hrun

lemma find_eq_some {c : MachineCache} {key : Nat} {p : Phase} {c' : MachineCache}
    (h : find c key = (some p, c')) :
    p.input = key ∧
      c' = ⟨c.entries, us_insert (update_usage c.usages (fun _ _ => true)) key 0⟩ := by
  rw [find] at h
  cases hf : c.entries.find? (fun ph => decide (ph.input = key)) with
  | none =>
    rw [find_rev_of_none hf] at h
    cases h
  | some p0 =>
    rw [find_rev_of_some hf] at h
    simp only [Prod.mk.injEq, Option.some.injEq] at h
    obtain ⟨rfl, rfl⟩ := h
    exact ⟨by simpa using List.find?_some hf, rfl⟩

lemma find_closest_eq_some {c : MachineCache} {key : Nat} {p : Phase} {c' : MachineCache}
    (h : find_closest c key = (some p, c')) :
    c' = ⟨c.entries, us_insert (update_usage c.usages (fun _ _ => true)) key 0⟩ := by
  rw [find_closest] at h
  cases hf : c.entries.find? (fun ph => decide (ph.input ≤ key)) with
  | none =>
    rw [find_rev_of_none hf] at h
    cases h
  | some p0 =>
    rw [find_rev_of_some hf] at h
    simp only [Prod.mk.injEq, Option.some.injEq] at h
    exact h.2.symm

lemma touch_usages (us : List (Nat × Nat)) (key : Nat) :
    us_get (us_insert (update_usage us (fun _ _ => true)) key 0) key = some 0 ∧
    ∀ k, k ≠ key → us_get (us_insert (update_usage us (fun _ _ => true)) key 0) k =
      (us_get us k).map (fun u => u + 1) := by
  constructor
  · rw [us_get_insert_self]
  · intro k hk
    rw [us_get_insert_ne _ _ _ _ hk, us_get_update]
    cases us_get us k <;> simp

/-! ## The claims -/

/-- C1: cache transparency and resumption equivalence for the Fibonacci
reference machine: `raw_calculate` is deterministic (it is a pure function of
`n`); on every cache state reachable by `lru_calculate` calls, `lru_calculate n`
succeeds and returns exactly `raw_calculate n`; and computing `m < n` first and
then `n` yields the same value as computing `n` directly from the fresh
machine. -/
theorem C1_cache_transparency :
    (∀ n : Nat, raw_calculate n = raw_calculate n) ∧
    (∀ st : Machine, Reachable fib_calculate st → ∀ n : Nat,
      ∃ st', lru_calculate fib_calculate st n = some (raw_calculate n, st')) ∧
    (∀ cap age m n : Nat, m < n →
      ∃ v1 st1 st2 st3,
        lru_calculate fib_calculate (Machine.init cap age) m = some (v1, st1) ∧
        lru_calculate fib_calculate st1 n = some (raw_calculate n, st2) ∧
        lru_calculate fib_calculate (Machine.init cap age) n = some (raw_calculate n, st3)) := by
  refine ⟨fun n => rfl, ?_, ?_⟩
  · intro st hr n
    obtain ⟨st', heq, _⟩ := lru_step_fib (reachable_inv hr) n
    refine ⟨st', ?_⟩
    rw [raw_calculate_eq]
    exact heq
  · intro cap age m n _
    have h0 : Reachable fib_calculate (Machine.init cap age) := Reachable.init cap age
    obtain ⟨st1, heq1, hinv1⟩ := lru_step_fib (reachable_inv h0) m
    obtain ⟨st2, heq2, _⟩ := lru_step_fib hinv1 n
    obtain ⟨st3, heq3, _⟩ := lru_step_fib (reachable_inv h0) n
    refine ⟨(fib_phase m).result, st1, st2, st3, heq1, ?_, ?_⟩
    · rw [raw_calculate_eq]
      exact heq2
    · rw [raw_calculate_eq]
      exact heq3

/-- Witness for C1 at concrete inputs: the fresh machine is reachable, and
computing 3 then 6 gives the same result for 6 as computing it directly. -/
theorem C1_witness :
    (∃ st', lru_calculate fib_calculate (Machine.init 2 1) 4 =
      some (raw_calculate 4, st')) ∧
    (∃ v1 st1 st2 st3,
      lru_calculate fib_calculate (Machine.init 8 9) 3 = some (v1, st1) ∧
      lru_calculate fib_calculate st1 6 = some (raw_calculate 6, st2) ∧
      lru_calculate fib_calculate (Machine.init 8 9) 6 = some (raw_calculate 6, st3)) :=
  ⟨C1_cache_transparency.2.1 (Machine.init 2 1) (Reachable.init 2 1) 4,
   C1_cache_transparency.2.2 8 9 3 6 (by decide)⟩

/-- C2 (counterexample): the claim that `find_closest q` returns the entry with
the largest index below or at `q` fails, because the derived order compares the
window before the index.  After inserting the checkpoint with window (5,0,0) at
index 1 and the checkpoint with window (2,0,0) at index 2, `find_closest 3`
returns the index-1 entry although index 2 also qualifies and is larger. -/
theorem C2_counterexample :
    (find_closest (push (push (⟨[], []⟩ : MachineCache) ⟨5, 0, 0, 1⟩) ⟨2, 0, 0, 2⟩) 3).1 =
      some ⟨5, 0, 0, 1⟩ ∧
    (⟨2, 0, 0, 2⟩ : Phase) ∈
      (push (push (⟨[], []⟩ : MachineCache) ⟨5, 0, 0, 1⟩) ⟨2, 0, 0, 2⟩).entries ∧
    (2 : Nat) ≤ 3 ∧ ¬ (2 : Nat) ≤ 1 := by decide

/-- C2 (amended): on a cache whose entry list is strictly descending in the
derived (window-then-index) order, `find_closest q` misses exactly when no
entry's index is at most `q`, and on a hit returns the entry that is greatest
in the derived order among those with index at most `q` — which need not carry
the largest such index. -/
theorem C2_floor_lookup_amended (c : MachineCache)
    (hs : List.Pairwise (fun a b => phaseLt b a = true) c.entries) (q : Nat) :
    ((find_closest c q).1 = none ↔ ∀ p ∈ c.entries, ¬ p.input ≤ q) ∧
    (∀ p, (find_closest c q).1 = some p → p ∈ c.entries ∧ p.input ≤ q ∧
      ∀ p' ∈ c.entries, p'.input ≤ q → p' = p ∨ phaseLt p' p = true) := by
  have hfst : (find_closest c q).1 = c.entries.find? (fun ph => decide (ph.input ≤ q)) := by
    rw [find_closest, find_rev_fst]
  constructor
  · rw [hfst, List.find?_eq_none]
    simp only [decide_eq_true_eq]
  · intro p hp
    rw [hfst] at hp
    refine ⟨List.mem_of_find?_eq_some hp, by simpa using List.find?_some hp, ?_⟩
    intro p' hp' hle
    exact find_desc_max hs hp p' hp' (by simpa using hle)

/-- Witness for C2 on a concrete sorted cache. -/
theorem C2_witness :
    ((find_closest (⟨[⟨0, 0, 0, 4⟩], [(4, 0)]⟩ : MachineCache) 9).1 = none ↔
      ∀ p ∈ (⟨[⟨0, 0, 0, 4⟩], [(4, 0)]⟩ : MachineCache).entries, ¬ p.input ≤ 9) ∧
    (∀ p, (find_closest (⟨[⟨0, 0, 0, 4⟩], [(4, 0)]⟩ : MachineCache) 9).1 = some p →
      p ∈ (⟨[⟨0, 0, 0, 4⟩], [(4, 0)]⟩ : MachineCache).entries ∧ p.input ≤ 9 ∧
      ∀ p' ∈ (⟨[⟨0, 0, 0, 4⟩], [(4, 0)]⟩ : MachineCache).entries, p'.input ≤ 9 →
        p' = p ∨ phaseLt p' p = true) :=
  C2_floor_lookup_amended ⟨[⟨0, 0, 0, 4⟩], [(4, 0)]⟩ (by decide) 9

/-- C3: the claim matches the spec and the trait documentation, but the code's
comparisons are reversed: `is_too_big` computes `max_entry_cap >= len()` and
`is_too_old` computes `max_usage_age >= highest_usage()`.  Evaluated at the
failing input — a fresh machine with cap 128 and age 50, empty cache — the
spec condition (size at least cap, or age at least max) is false, yet the
code's trigger fires and the sweep runs. -/
theorem C3_eviction_trigger_reversed :
    (is_too_big (Machine.init 128 50) || is_too_old (Machine.init 128 50)) = true ∧
    ¬ (cache_len (Machine.init 128 50).cache ≥ 128 ∨
       highest_usage (Machine.init 128 50).cache ≥ 50) := by decide

/-- C4 (counterexample): the sweep recomputes `highest_usage` on the mutating
cache, so victims cascade.  With entries at indices 5 (age 1) and 3 (age 0),
the sweep first drops the age-1 entry, after which age 0 becomes the maximum
and the index-3 entry is dropped too — an entry with age strictly below the
pre-sweep maximum 1 is absent afterwards. -/
theorem C4_counterexample :
    us_get (push (push (⟨[], []⟩ : MachineCache) ⟨0, 0, 0, 5⟩) ⟨0, 0, 0, 3⟩).usages 3 =
      some 0 ∧
    us_get (push (push (⟨[], []⟩ : MachineCache) ⟨0, 0, 0, 5⟩) ⟨0, 0, 0, 3⟩).usages 5 =
      some 1 ∧
    highest_usage (push (push (⟨[], []⟩ : MachineCache) ⟨0, 0, 0, 5⟩) ⟨0, 0, 0, 3⟩) = 1 ∧
    (⟨0, 0, 0, 3⟩ : Phase) ∈
      (push (push (⟨[], []⟩ : MachineCache) ⟨0, 0, 0, 5⟩) ⟨0, 0, 0, 3⟩).entries ∧
    drop_invalid (push (push (⟨[], []⟩ : MachineCache) ⟨0, 0, 0, 5⟩) ⟨0, 0, 0, 3⟩)
      (fun _ => true) = some ([⟨0, 0, 0, 5⟩, ⟨0, 0, 0, 3⟩], ⟨[], []⟩) := by decide

/-- C4 (amended): after the all-true `drop_invalid` sweep on a cache with
duplicate-free entries, every entry whose usage record equals the maximum over
the whole usages map is absent; entries with strictly smaller age are NOT
guaranteed to remain (the sweep can cascade, see the counterexample). -/
theorem C4_max_age_evicted (c : MachineCache) (p : Phase) (v : Nat)
    (hmem : p ∈ c.entries) (hnd : c.entries.Nodup)
    (hget : us_get c.usages p.input = some v)
    (hmax : ∀ u ∈ c.usages.map Prod.snd, u ≤ v)
    (d : List Phase) (c' : MachineCache)
    (hrun : drop_invalid c (fun _ => true) = some (d, c')) :
    p ∉ c'.entries := by
  rw [drop_invalid] at hrun
  exact drop_go_removes_max (fun x => rfl) v c.entries c [] p hmem (Or.inl hget) hmax hnd
    d c' hrun

/-- Witness for C4: the single max-age entry of a one-entry cache is evicted. -/
theorem C4_witness :
    (⟨0, 0, 0, 9⟩ : Phase) ∉ (⟨[], []⟩ : MachineCache).entries :=
  C4_max_age_evicted ⟨[⟨0, 0, 0, 9⟩], [(9, 2)]⟩ ⟨0, 0, 0, 9⟩ 2 (by decide) (by decide)
    (by decide) (by decide) [⟨0, 0, 0, 9⟩] ⟨[], []⟩ (by decide)

/-- C5 (counterexample): an inexact `find_closest` hit does not reset the found
entry's age.  With the single entry at index 1 (age 0), `find_closest 2`
touches that entry, yet afterwards its age is 1, not 0 (the reset went to the
query key 2). -/
theorem C5_counterexample :
    (find_closest (push (⟨[], []⟩ : MachineCache) ⟨1, 0, 0, 1⟩) 2).1 =
      some ⟨1, 0, 0, 1⟩ ∧
    us_get ((find_closest (push (⟨[], []⟩ : MachineCache) ⟨1, 0, 0, 1⟩) 2).2).usages 1 =
      some 1 ∧
    ¬ us_get ((find_closest (push (⟨[], []⟩ : MachineCache) ⟨1, 0, 0, 1⟩) 2).2).usages 1 =
      some 0 := by decide

/-- C5 (amended): `push` and exact `find` hits reset the touched entry's record
to 0 and increment every other record by exactly 1; a `find_closest` hit
resets the record of the *query key* (creating it if absent) and increments
every other record by 1 — the found entry's age is reset only when its index
equals the query. -/
theorem C5_touch_semantics_amended :
    (∀ (c : MachineCache) (e : Phase),
      us_get (push c e).usages e.input = some 0 ∧
      ∀ k, k ≠ e.input →
        us_get (push c e).usages k = (us_get c.usages k).map (fun u => u + 1)) ∧
    (∀ (c : MachineCache) (key : Nat) (p : Phase) (c' : MachineCache),
      find c key = (some p, c') → p.input = key ∧ us_get c'.usages key = some 0 ∧
      ∀ k, k ≠ key → us_get c'.usages k = (us_get c.usages k).map (fun u => u + 1)) ∧
    (∀ (c : MachineCache) (key : Nat) (p : Phase) (c' : MachineCache),
      find_closest c key = (some p, c') → us_get c'.usages key = some 0 ∧
      ∀ k, k ≠ key → us_get c'.usages k = (us_get c.usages k).map (fun u => u + 1)) := by
  refine ⟨?_, ?_, ?_⟩
  · intro c e
    constructor
    · show us_get (update_usage (us_insert c.usages e.input 0)
        (fun i _ => decide (i ≠ e.input))) e.input = some 0
      rw [us_get_update, us_get_insert_self]
      simp
    · intro k hk
      show us_get (update_usage (us_insert c.usages e.input 0)
        (fun i _ => decide (i ≠ e.input))) k = (us_get c.usages k).map (fun u => u + 1)
      rw [us_get_update, us_get_insert_ne _ _ _ _ hk]
      cases us_get c.usages k <;> simp [hk]
  · intro c key p c' h
    obtain ⟨hpk, rfl⟩ := find_eq_some h
    exact ⟨hpk, (touch_usages c.usages key).1, (touch_usages c.usages key).2⟩
  · intro c key p c' h
    obtain rfl := find_closest_eq_some h
    exact ⟨(touch_usages c.usages key).1, (touch_usages c.usages key).2⟩

/-- Witness for C5 on concrete caches. -/
theorem C5_witness :
    us_get (push (⟨[], []⟩ : MachineCache) ⟨0, 0, 0, 7⟩).usages 7 = some 0 ∧
    ((⟨0, 0, 0, 7⟩ : Phase).input = 7 ∧
      us_get (⟨[⟨0, 0, 0, 7⟩], [(7, 0)]⟩ : MachineCache).usages 7 = some 0 ∧
      ∀ k, k ≠ 7 → us_get (⟨[⟨0, 0, 0, 7⟩], [(7, 0)]⟩ : MachineCache).usages k =
        (us_get (⟨[⟨0, 0, 0, 7⟩], [(7, 5)]⟩ : MachineCache).usages k).map (fun u => u + 1)) :=
  ⟨(C5_touch_semantics_amended.1 ⟨[], []⟩ ⟨0, 0, 0, 7⟩).1,
   C5_touch_semantics_amended.2.1 ⟨[⟨0, 0, 0, 7⟩], [(7, 5)]⟩ 7 ⟨0, 0, 0, 7⟩
     ⟨[⟨0, 0, 0, 7⟩], [(7, 0)]⟩ (by decide)⟩

/-- C6 (counterexample): the entry/staleness key-set correspondence fails.
After pushing the checkpoint at index 1 and then a `find_closest 2` hit, the
usages map holds a record for key 2 although no entry has index 2. -/
theorem C6_counterexample :
    (2 : Nat) ∈
      ((find_closest (push (⟨[], []⟩ : MachineCache) ⟨0, 0, 0, 1⟩) 2).2).usages.map
        Prod.fst ∧
    (2 : Nat) ∉
      ((find_closest (push (⟨[], []⟩ : MachineCache) ⟨0, 0, 0, 1⟩) 2).2).entries.map
        Phase.input := by decide

/-- C6 (amended): when every pushed checkpoint is the canonical checkpoint of
its index, every reachable cache state keeps exactly one usage record per
entry index (entry indices are contained in the duplicate-free usage key set);
the reverse containment fails, as `find_closest` hits at uncached query keys
create usage records with no corresponding entry. -/
theorem C6_invariant_amended (canon : Nat → Phase) (hcanon : ∀ i, (canon i).input = i)
    (c : MachineCache) (h : CReach canon c) :
    (∀ p ∈ c.entries, p.input ∈ c.usages.map Prod.fst) ∧
    (c.usages.map Prod.fst).Nodup := by
  have hinv := creach_inv hcanon h
  refine ⟨?_, hinv.2.2.2⟩
  intro p hp
  exact (us_get_isSome_iff _ _).mp (hinv.2.2.1 p hp)

/-- Witness for C6 on a concrete reachable cache. -/
theorem C6_witness :
    (∀ p ∈ (push (⟨[], []⟩ : MachineCache) ⟨0, 0, 0, 1⟩).entries,
      p.input ∈ (push (⟨[], []⟩ : MachineCache) ⟨0, 0, 0, 1⟩).usages.map Prod.fst) ∧
    ((push (⟨[], []⟩ : MachineCache) ⟨0, 0, 0, 1⟩).usages.map Prod.fst).Nodup :=
  C6_invariant_amended (fun i => ⟨0, 0, 0, i⟩) (fun _ => rfl) _
    (CReach.push_step 1 CReach.empty)

/-- C7 (counterexample): with the reference rule max(1, a+b) starting from the
all-zero phase, the loop body runs zero times for n = 0, so compute(0) is 0,
not 1 as the claim states.  (The code's own doctest, 26 to 121393, agrees with
the code.) -/
theorem C7_counterexample :
    (lru_calculate fib_calculate (Machine.init 128 50) 0).map Prod.fst = some 0 ∧
    ¬ (lru_calculate fib_calculate (Machine.init 128 50) 0).map Prod.fst = some 1 := by
  decide

/-- C7 (amended): the concrete Fibonacci values actually produced are
compute(0) = 0, compute(5) = 5 and compute(10) = 55 (the claimed 1, 8, 89 are
the values one index later). -/
theorem C7_fib_values_amended :
    (lru_calculate fib_calculate (Machine.init 128 50) 0).map Prod.fst = some 0 ∧
    (lru_calculate fib_calculate (Machine.init 128 50) 5).map Prod.fst = some 5 ∧
    (lru_calculate fib_calculate (Machine.init 128 50) 10).map Prod.fst = some 55 := by
  decide

/-- C8: termination and iteration counts.  The Fibonacci advance performs
exactly `n - checkpoint.index` iterations of the step on the window;
`next_prime` terminates (some fuel suffices) on 0 and on every prime, the
values its argument can take in a reachable phase; and the Primes advance
terminates whenever the head slot holds 0 or a prime. -/
theorem C8_termination :
    (∀ (n : Nat) (ph : Phase), fib_calculate n ph =
      ⟨(fibStep^[n - ph.input] (ph.p0, ph.p1, ph.p2)).1,
       (fibStep^[n - ph.input] (ph.p0, ph.p1, ph.p2)).2.1,
       (fibStep^[n - ph.input] (ph.p0, ph.p1, ph.p2)).2.2, n⟩) ∧
    (∀ v : Nat, v = 0 ∨ Nat.Prime v → ∃ fuel r, next_prime fuel v = some r) ∧
    (∀ (n : Nat) (ph : Phase), ph.p0 = 0 ∨ Nat.Prime ph.p0 →
      ∃ fuel res, primes_calculate fuel n ph = some res) := by
  refine ⟨?_, ?_, ?_⟩
  · intro n ph
    simp only [fib_calculate, fib_loop_eq_iterate]
  · intro v hv
    obtain ⟨fuel, r, hr, _⟩ := next_prime_total (goodval_of_prime hv)
    exact ⟨fuel, r, hr⟩
  · intro n ph hv
    exact primes_calculate_total n ph (goodval_of_prime hv)

/-- Witness for C8 at concrete inputs. -/
theorem C8_witness :
    ((0 : Nat) = 0 ∨ Nat.Prime 0) ∧ (∃ fuel r, next_prime fuel 0 = some r) ∧
    (Phase.new.p0 = 0 ∨ Nat.Prime Phase.new.p0) ∧
    (∃ fuel res, primes_calculate fuel 3 Phase.new = some res) :=
  ⟨Or.inl rfl, C8_termination.2.1 0 (Or.inl rfl), Or.inl rfl,
   C8_termination.2.2 3 Phase.new (Or.inl rfl)⟩

/-- C9: a cache miss is never surfaced: `Phase::new` has index and all window
slots at zero; on a `find_closest` miss `lru_find_phase` substitutes exactly
that zero phase (and on a hit returns the cached phase); and `lru_calculate`
on the Fibonacci machine always returns a value on reachable states. -/
theorem C9_miss_handling :
    ((Phase.new.input = 0 ∧ Phase.new.p0 = 0) ∧ Phase.new.p1 = 0 ∧ Phase.new.p2 = 0) ∧
    (∀ (m : Machine) (n : Nat), (find_closest m.cache n).1 = none →
      lru_find_phase m n = (Phase.new, { m with cache := (find_closest m.cache n).2 })) ∧
    (∀ (m : Machine) (n : Nat) (p : Phase), (find_closest m.cache n).1 = some p →
      lru_find_phase m n = (p, { m with cache := (find_closest m.cache n).2 })) ∧
    (∀ m : Machine, Reachable fib_calculate m → ∀ n : Nat,
      (lru_calculate fib_calculate m n).isSome = true) := by
  refine ⟨⟨⟨rfl, rfl⟩, rfl, rfl⟩, ?_, ?_, ?_⟩
  · intro m n h
    cases hfc : find_closest m.cache n with
    | mk o c' =>
      have ho : o = none := by rw [hfc] at h; exact h
      subst ho
      rw [lru_find_phase, hfc]
  · intro m n p h
    cases hfc : find_closest m.cache n with
    | mk o c' =>
      have ho : o = some p := by rw [hfc] at h; exact h
      subst ho
      rw [lru_find_phase, hfc]
  · intro m hr n
    obtain ⟨m', heq, _⟩ := lru_step_fib (reachable_inv hr) n
    rw [heq]
    rfl

/-- Witness for C9: a concrete miss, a concrete hit, and a concrete total
call. -/
theorem C9_witness :
    lru_find_phase (Machine.init 4 4) 5 =
      (Phase.new, { Machine.init 4 4 with
        cache := (find_closest (Machine.init 4 4).cache 5).2 }) ∧
    lru_find_phase (⟨⟨[⟨0, 0, 0, 2⟩], [(2, 0)]⟩, 4, 4⟩ : Machine) 5 =
      (⟨0, 0, 0, 2⟩, { (⟨⟨[⟨0, 0, 0, 2⟩], [(2, 0)]⟩, 4, 4⟩ : Machine) with
        cache := (find_closest
          (⟨⟨[⟨0, 0, 0, 2⟩], [(2, 0)]⟩, 4, 4⟩ : Machine).cache 5).2 }) ∧
    (lru_calculate fib_calculate (Machine.init 4 4) 5).isSome = true :=
  ⟨C9_miss_handling.2.1 (Machine.init 4 4) 5 (by decide),
   C9_miss_handling.2.2.1 (⟨⟨[⟨0, 0, 0, 2⟩], [(2, 0)]⟩, 4, 4⟩ : Machine) 5 ⟨0, 0, 0, 2⟩
     (by decide),
   C9_miss_handling.2.2.2 (Machine.init 4 4) (Reachable.init 4 4) 5⟩

/-- C10: on every machine state reachable through `lru_calculate` on the
Fibonacci machine, every entry's index has a usage record, and the all-true
`drop_invalid` sweep completes without the `expect("usage count")` panic. -/
theorem C10_no_panic (m : Machine) (h : Reachable fib_calculate m) :
    (∀ p ∈ m.cache.entries, (us_get m.cache.usages p.input).isSome = true) ∧
    (drop_invalid m.cache (fun _ => true)).isSome = true := by
  have hinv := reachable_inv h
  exact ⟨hinv.2.2.1, drop_invalid_isSome hinv (fun _ => true)⟩

/-- Witness for C10 at the fresh machine. -/
theorem C10_witness :
    (∀ p ∈ (Machine.init 3 3).cache.entries,
      (us_get (Machine.init 3 3).cache.usages p.input).isSome = true) ∧
    (drop_invalid (Machine.init 3 3).cache (fun _ => true)).isSome = true :=
  C10_no_panic (Machine.init 3 3) (Reachable.init 3 3)

end MathMachines
